import Mathlib

/-!
Verification development for the `kvs` log-structured key-value store
(`src/lib.rs`).  The store appends framed records
(`checksum:u32 | key_len:u32 | val_len:u32 | key | value`, all integers
little-endian) to a single log file and keeps an in-memory index from key to
the offset of the newest record for that key.

The shallow embedding below models:
  * bytes as `Fin 256`, byte sequences as `List Byte`;
  * the CRC-32/IEEE checksum of the `crc` crate (`crc32::checksum_ieee`),
    i.e. the reflected-polynomial algorithm with init and xor-out
    `0xFFFFFFFF` and polynomial `0xEDB88320`;
  * the shared file handle as its contents (`List Byte`) together with the
    file cursor position (a `Nat`); reads and writes advance the cursor by
    the bytes they consume or produce, `SeekFrom::End 0` moves it to the
    length of the contents;
  * `HashMap<ByteString, u64>` as an association list with last-write-wins
    insertion (`alSet`); the iteration order of the model is the list order,
    one of the orders the hash map may present;
  * `io::Result` error returns and `panic!` aborts as distinct constructors
    of the result types.
-/

/-- A byte, as stored in the log file. -/
abbrev Byte := Fin 256

/-- Little-endian serialisation of the low 32 bits of `n`, as written by
`write_u32::<LittleEndian>` (the `as u32` cast in the source truncates to the
low 32 bits, which the digit extraction below performs as well). -/
def u32le (n : Nat) : List Byte :=
  [⟨n % 256, by omega⟩, ⟨n / 256 % 256, by omega⟩,
   ⟨n / 65536 % 256, by omega⟩, ⟨n / 16777216 % 256, by omega⟩]

/-- `read_u32::<LittleEndian>`: consume four bytes and return their
little-endian value, or fail with `UnexpectedEof` (`none`) when fewer than
four bytes remain. -/
def readU32 : List Byte → Option (Nat × List Byte)
  | b0 :: b1 :: b2 :: b3 :: rest =>
      some (b0.val + 256 * b1.val + 65536 * b2.val + 16777216 * b3.val, rest)
  | _ => none

/-- One shift-and-conditionally-xor step of the reflected CRC-32 algorithm
(polynomial `0xEDB88320`). -/
def crcStep (crc : Nat) : Nat :=
  if crc % 2 = 1 then (crc / 2) ^^^ 0xEDB88320 else crc / 2

/-- Fold one byte into the CRC accumulator: xor in the byte, then run eight
shift steps. -/
def crcByte (crc : Nat) (b : Byte) : Nat :=
  crcStep (crcStep (crcStep (crcStep (crcStep (crcStep (crcStep (crcStep
    (crc ^^^ b.val))))))))

/-- `crc32::checksum_ieee` of the `crc` crate: CRC-32/IEEE (ISO-HDLC) over a
byte sequence, with initial value and final xor `0xFFFFFFFF`. -/
def crc32 (data : List Byte) : Nat :=
  (data.foldl crcByte 0xFFFFFFFF) ^^^ 0xFFFFFFFF

/-- A decoded record: owned copies of the key and value bytes
(`pub struct KeyValuePair`). -/
structure KeyValuePair where
  key : List Byte
  value : List Byte
deriving DecidableEq, Repr

/-- Outcome of `KvStore::process_record` (lib.rs lines 85–115).  The Rust
function returns `io::Result<KeyValuePair>`; reaching the end of input inside
the fixed header surfaces as an `UnexpectedEof` error return, while a
checksum mismatch or an out-of-range `split_off` aborts the process with a
panic rather than returning. -/
inductive ProcResult where
  /-- Successful decode; `rest` is the input remaining after the record. -/
  | ok (kv : KeyValuePair) (rest : List Byte)
  /-- `read_u32` failed with `io::ErrorKind::UnexpectedEof`. -/
  | eofErr
  /-- `panic!("data corruption encountered ({:08x} != {:08x})", computed, stored)`. -/
  | corruptPanic (computed stored : Nat)
  /-- `data.split_off(key_len)` panics because `key_len` exceeds `data.len()`. -/
  | splitPanic
deriving DecidableEq, Repr

/-- `KvStore::process_record` (lib.rs lines 85–115): read the 12-byte header,
read `key_len + val_len` (32-bit wrapping sum) body bytes — the
`take(data_len).read_to_end(..)` call reads at most `data_len` bytes and does
*not* error when fewer are available — recompute the checksum, panic on
mismatch, and split the body at `key_len`. -/
def process_record (f : List Byte) : ProcResult :=
  match readU32 f with
  | none => .eofErr
  | some (saved_checksum, f1) =>
    match readU32 f1 with
    | none => .eofErr
    | some (key_len, f2) =>
      match readU32 f2 with
      | none => .eofErr
      | some (val_len, f3) =>
        let data_len := (key_len + val_len) % 4294967296
        let data := f3.take data_len
        let checksum := crc32 data
        if checksum ≠ saved_checksum then
          .corruptPanic checksum saved_checksum
        else if key_len ≤ data.length then
          .ok ⟨data.take key_len, data.drop key_len⟩ (f3.drop data_len)
        else
          .splitPanic

/-- The framed bytes appended for a key/value pair, as written by
`KvStore::insert_but_ignore_index` (lib.rs lines 202–225) and identically by
the rewrite loop of `KvStore::compact` (lib.rs lines 163–173): checksum over
`key ++ value`, then the two lengths (`as u32` truncation happens inside
`u32le`), then the full key and value bytes. -/
def encodeRecord (key value : List Byte) : List Byte :=
  u32le (crc32 (key ++ value)) ++ u32le key.length ++ u32le value.length ++
    key ++ value

/-- The `key_len` field stored in a framed record's header (bytes 4–8),
as read back by `process_record`. -/
def keyLenField (r : List Byte) : Option Nat :=
  (readU32 (r.drop 4)).map Prod.fst

/-- The number of body bytes `process_record` reads after a complete header
(lib.rs lines 93 and 99): `data_len` is the 32-bit wrapping sum
`key_len + val_len`, and `take(data_len).read_to_end` reads
`min data_len available`. -/
def bodyBytesRead (f : List Byte) : Option Nat :=
  (readU32 f).bind fun p1 =>
    (readU32 p1.2).bind fun p2 =>
      (readU32 p2.2).map fun p3 =>
        min ((p2.1 + p3.1) % 4294967296) p3.2.length

/-- Last-write-wins association-list update, modelling `HashMap::insert`:
any previous binding of `k` is removed and the new binding appended. -/
def alSet [BEq α] (l : List (α × β)) (k : α) (v : β) : List (α × β) :=
  l.filter (fun e => !(e.1 == k)) ++ [(k, v)]

/-- Association-list lookup, modelling `HashMap::get`. -/
def alGet [BEq α] (l : List (α × β)) (k : α) : Option β :=
  (l.find? (fun e => e.1 == k)).map Prod.snd

/-- Remove a binding, used to model `fs::rename` taking its source away. -/
def alRemove [BEq α] (l : List (α × β)) (k : α) : List (α × β) :=
  l.filter (fun e => !(e.1 == k))

/-- The in-memory index `HashMap<ByteString, u64>`: key ↦ offset of the
newest record for that key. -/
abbrev Index := List (List Byte × Nat)

/-- The state behind `KvStore`: the shared file handle (its contents and its
cursor position) and the index.  The handle is opened with
`read/write/create/append`; `SeekFrom::End 0` therefore targets
`file.length`, and the cursor starts at `0` on open. -/
structure Store where
  file : List Byte
  cursor : Nat
  index : Index
deriving DecidableEq, Repr

/-- `KvStore::open` (lib.rs lines 27–41) on a file with the given existing
contents (empty for a freshly created file): fresh empty index, cursor at the
start of the file. -/
def KvStore.openStore (contents : List Byte) : Store :=
  { file := contents, cursor := 0, index := [] }

/-- `KvStore::get_at` (lib.rs lines 128–136): seek to `position` and decode
one record there.  On success the cursor ends just past the record's bytes;
a header read that ran off the end of the file leaves it at end-of-file. -/
def KvStore.get_at (s : Store) (position : Nat) : ProcResult × Store :=
  match process_record (s.file.drop position) with
  | .ok kv rest => (.ok kv rest, { s with cursor := s.file.length - rest.length })
  | r => (r, { s with cursor := s.file.length })

/-- Outcome of `KvStore::get`: `io::Result<Option<ByteString>>` plus the two
panic outcomes `process_record` can abort with. -/
inductive GetResult where
  | found (value : List Byte)
  | notFound
  | eofErr
  | corruptPanic (computed stored : Nat)
  | splitPanic
deriving DecidableEq, Repr

/-- `KvStore::get` (lib.rs lines 117–126): look the key up in the index; if
absent return `None`, otherwise decode the record at the stored offset and
return its value (the decoded key is not compared against the query). -/
def KvStore.get (s : Store) (key : List Byte) : GetResult × Store :=
  match alGet s.index key with
  | none => (.notFound, s)
  | some position =>
    match KvStore.get_at s position with
    | (.ok kv _, s') => (.found kv.value, s')
    | (.eofErr, s') => (.eofErr, s')
    | (.corruptPanic c st, s') => (.corruptPanic c st, s')
    | (.splitPanic, s') => (.splitPanic, s')

/-- The result component of `get`. -/
def getRes (s : Store) (key : List Byte) : GetResult :=
  (KvStore.get s key).1

/-- `KvStore::insert_but_ignore_index` (lib.rs lines 198–230): build the
framed record, take `current_position = seek(SeekFrom::Current(0))` — *the
cursor position as previous operations left it* — then seek to
`SeekFrom::End(0)` and write the record there.  The function returns
`current_position`, which is the value the index will store. -/
def KvStore.insert_but_ignore_index (s : Store) (key value : List Byte) :
    Store × Nat :=
  let current_position := s.cursor
  let file' := s.file ++ encodeRecord key value
  ({ s with file := file', cursor := file'.length }, current_position)

/-- `KvStore::insert` (lib.rs lines 138–143): append the record, then map the
key to the returned position. -/
def KvStore.insert (s : Store) (key value : List Byte) : Store :=
  let r := KvStore.insert_but_ignore_index s key value
  { r.1 with index := alSet r.1.index key r.2 }

/-- `KvStore::update` (lib.rs lines 232–235): alias of `insert`. -/
def KvStore.update (s : Store) (key value : List Byte) : Store :=
  KvStore.insert s key value

/-- `KvStore::delete` (lib.rs lines 237–240): `insert(key, b"")`. -/
def KvStore.delete (s : Store) (key : List Byte) : Store :=
  KvStore.insert s key []

/-- Outcome of the index-rebuilding replay loop inside `KvStore::load`. -/
inductive LoadRes where
  | ok (idx : Index)
  | corruptPanic (computed stored : Nat)
  | splitPanic
deriving DecidableEq, Repr

/-- The loop of `KvStore::load` (lib.rs lines 48–63): remember the current
position, decode one record, break cleanly on `UnexpectedEof`, propagate a
panic, and otherwise map the decoded key to the remembered position and
continue.  `fuel` only bounds the recursion; every successful decode consumes
at least the 12 header bytes, so `bytes.length + 1` steps can never be
exhausted and the `fuel = 0` branch is unreachable for the initial fuel used
by `KvStore.load`. -/
def loadGo : Nat → List Byte → Nat → Index → LoadRes
  | 0, _, _, idx => .ok idx
  | fuel + 1, bytes, pos, idx =>
    match process_record bytes with
    | .eofErr => .ok idx
    | .corruptPanic c st => .corruptPanic c st
    | .splitPanic => .splitPanic
    | .ok kv rest =>
        loadGo fuel rest (pos + (bytes.length - rest.length))
          (alSet idx kv.key pos)

/-- Outcome of `KvStore::load`. -/
inductive LoadOutcome where
  | ok (s : Store)
  | corruptPanic (computed stored : Nat)
  | splitPanic
deriving DecidableEq, Repr

/-- `KvStore::load` (lib.rs lines 44–66): replay the file from offset 0,
inserting each decoded key at the position its record starts.  On the clean
`UnexpectedEof` break the buffered reader has consumed the file, leaving the
cursor at end-of-file. -/
def KvStore.load (s : Store) : LoadOutcome :=
  match loadGo (s.file.length + 1) s.file 0 s.index with
  | .ok idx => .ok { s with index := idx, cursor := s.file.length }
  | .corruptPanic c st => .corruptPanic c st
  | .splitPanic => .splitPanic

/-- The decoded record at a file offset, when decoding succeeds. -/
def kvAt (file : List Byte) (off : Nat) : Option KeyValuePair :=
  match process_record (file.drop off) with
  | .ok kv _ => some kv
  | _ => none

/-- Outcome of the rewrite loop of `KvStore::compact` (lib.rs lines 159–179,
including the trailing `flush` and `sync_all`). -/
inductive RwResult where
  /-- All live records rewritten: the temp file's contents, the fresh index,
  and where the reads left the original handle's cursor. -/
  | ok (temp : List Byte) (nidx : Index) (cursor : Nat)
  /-- An `io::Error` was propagated by a `?`; `cursor` is where the original
  handle's cursor was left. -/
  | err (cursor : Nat)
  | corruptPanic (computed stored : Nat)
  | splitPanic
deriving DecidableEq, Repr

/-- The `for (_, &position) in &*index_lock` loop of `KvStore::compact`
(lib.rs lines 159–176) followed by `flush`/`sync_all` (lines 178–179): for
each index entry read the live record via `get_at` on the original file,
note `new_position = temp.length` (the temp file's cursor, which only
sequential writes have moved), append the re-encoded record to the temp
file and record the key in the fresh index.

`failAt` injects an `io::Error` into the otherwise pure model: `some i` with
`i` below the entry count makes the i-th iteration's I/O fail, and the two
slots after the last entry make `flush` respectively `sync_all` fail (`opIdx`
counts the iterations).  `none` injects no failure. -/
def rewriteGo (file : List Byte) (failAt : Option Nat) (opIdx : Nat) :
    List (List Byte × Nat) → List Byte → Index → Nat → RwResult
  | [], temp, nidx, cursor =>
    if failAt = some opIdx ∨ failAt = some (opIdx + 1) then .err cursor
    else .ok temp nidx cursor
  | e :: rest, temp, nidx, cursor =>
    if failAt = some opIdx then .err cursor
    else
      match process_record (file.drop e.2) with
      | .ok kv r =>
          rewriteGo file failAt (opIdx + 1) rest
            (temp ++ encodeRecord kv.key kv.value)
            (alSet nidx kv.key temp.length)
            (file.length - r.length)
      | .eofErr => .err file.length
      | .corruptPanic c st => .corruptPanic c st
      | .splitPanic => .splitPanic

/-- Outcome of `KvStore::compact`. -/
inductive CompactOutcome where
  | ok (s : Store)
  /-- An `io::Error` returned to the caller; the store as `&mut self` was
  left behind is carried alongside. -/
  | err (s : Store)
  | corruptPanic (computed stored : Nat)
  | splitPanic
deriving DecidableEq, Repr

/-- `KvStore::compact` (lib.rs lines 145–196) with an injected I/O failure
point (see `rewriteGo`): run the rewrite pass; only if it completes are the
temp file renamed over the log and `self.f` and `self.index` replaced by the
new handle (cursor `0`) and the new index.  On an error return before the
rename, `self.f` and `self.index` still hold the original file and index —
only the shared cursor may have moved, by the `get_at` reads. -/
def KvStore.compactF (s : Store) (failAt : Option Nat) : CompactOutcome :=
  match rewriteGo s.file failAt 0 s.index [] [] s.cursor with
  | .ok temp nidx _ => .ok { file := temp, cursor := 0, index := nidx }
  | .err cur => .err { s with cursor := cur }
  | .corruptPanic c st => .corruptPanic c st
  | .splitPanic => .splitPanic

/-- `KvStore::compact` as called in normal operation: no injected failure. -/
def KvStore.compact (s : Store) : CompactOutcome :=
  KvStore.compactF s none

/-- Concatenation of the framed records for a list of pairs: the shape of the
file `compact` produces. -/
def encAll (ps : List KeyValuePair) : List Byte :=
  (ps.map fun p => encodeRecord p.key p.value).flatten

/-- The live records `compact` reads back, one per index entry in iteration
order. -/
def pairsOf (file : List Byte) (entries : List (List Byte × Nat)) :
    List KeyValuePair :=
  entries.map fun e => (kvAt file e.2).getD ⟨[], []⟩

/-- The index `compact` builds while appending re-encoded records starting at
offset `base` of the temp file. -/
def buildIdx (nidx : Index) (base : Nat) : List KeyValuePair → Index
  | [] => nidx
  | p :: ps =>
      buildIdx (alSet nidx p.key base)
        (base + (encodeRecord p.key p.value).length) ps

/-- A file system mapping paths to file contents, for the parts of `compact`
that address files by path (`"db2"`, `fs::rename`, the reopen of `"db"`). -/
abbrev FileSys := List (String × List Byte)

/-- A store together with the path its file handle was opened at. -/
structure PStore where
  store : Store
  handlePath : String
deriving DecidableEq, Repr

/-- `KvStore::open` at a caller-specified path: use the existing contents or
create an empty file there. -/
def KvStore.openPath (fs : FileSys) (path : String) : PStore × FileSys :=
  let contents := (alGet fs path).getD []
  ({ store := KvStore.openStore contents, handlePath := path },
   alSet fs path contents)

/-- Outcome of `KvStore::compact` in the path-aware model. -/
inductive CompactPOutcome where
  | ok (res : PStore × FileSys)
  | err (res : PStore × FileSys)
  | corruptPanic (computed stored : Nat)
  | splitPanic
deriving DecidableEq, Repr

/-- `KvStore::compact` (lib.rs lines 145–196) with its path handling: the
temp file is created (and truncated) at the hard-coded path `"db2"`
(line 149), the rewrite pass fills it, `fs::rename("db2", "db")` moves it
over the hard-coded path `"db"` (lines 181–182) — regardless of the path the
store was opened at — and the store's handle is reopened at `"db"`
(lines 184–190) with a fresh cursor and the new index.  The original handle's
inode is unaffected by the rename, so on an error return the store still
holds its original file, cursor aside. -/
def KvStore.compactPath (fs : FileSys) (ps : PStore) : CompactPOutcome :=
  let tempPath := "db2"
  let fs1 := alSet fs tempPath []
  match rewriteGo ps.store.file none 0 ps.store.index [] [] ps.store.cursor with
  | .ok temp nidx _ =>
      let fs2 := alSet fs1 tempPath temp
      let dbPath := "db"
      let fs3 := alSet (alRemove fs2 tempPath) dbPath temp
      .ok ({ store := { file := temp, cursor := 0, index := nidx },
             handlePath := dbPath }, fs3)
  | .err cur =>
      .err ({ ps with store := { ps.store with cursor := cur } }, fs1)
  | .corruptPanic c st => .corruptPanic c st
  | .splitPanic => .splitPanic

/-! ### Concrete inputs used by the claim evaluations -/

/-- A log file holding one record: key `"j"`, value `"w"`. -/
def exRecordJ : List Byte := encodeRecord [106] [119]

/-- A log file holding one record: key `"x"`, value `"w"`. -/
def exRecordX : List Byte := encodeRecord [120] [119]

/-- A log file whose second record is cut 13 bytes in: its 12-byte header is
complete but only one of its two body bytes is present (a crash mid-append). -/
def exTruncatedLog : List Byte :=
  encodeRecord [97] [49] ++ (encodeRecord [98] [50]).take 13

/-- A complete framed record (key `"a"`, value `"b"`) whose stored checksum
field is `0`, which is not the CRC-32 of its body. -/
def exCorruptRecord : List Byte :=
  u32le 0 ++ u32le 1 ++ u32le 1 ++ [97, 98]

/-- A store over a log holding a superseded record for key `"a"` (value
`"1"` at offset 0) and its live record (value `"2"` at offset 14), with the
index pointing at the live one. -/
def exStoreSuperseded : Store :=
  { file := encodeRecord [97] [49] ++ encodeRecord [97] [50]
    cursor := 0
    index := [([97], 14)] }

/-- A store over a log holding live records for the keys `"a"` and `"b"`. -/
def exStoreTwo : Store :=
  { file := encodeRecord [97] [49] ++ encodeRecord [98] [50]
    cursor := 0
    index := [([97], 0), ([98], 14)] }

/-! ### Basic lemmas about the codec -/

/-- Reading back four little-endian digit bytes recovers the value modulo
`2^32`. -/
theorem readU32_u32le (n : Nat) (r : List Byte) :
    readU32 (u32le n ++ r) = some (n % 4294967296, r) := by
  simp [u32le, readU32]
  omega

theorem u32le_length (n : Nat) : (u32le n).length = 4 := by
  simp [u32le]

theorem crcStep_lt {c : Nat} (h : c < 4294967296) : crcStep c < 4294967296 := by
  have h2 : (4294967296 : Nat) = 2 ^ 32 := by norm_num
  unfold crcStep
  split
  · have h1 : c / 2 < 2 ^ 32 := by omega
    have h3 : (0xEDB88320 : Nat) < 2 ^ 32 := by norm_num
    rw [h2]
    exact Nat.xor_lt_two_pow h1 h3
  · omega

theorem crcByte_lt {c : Nat} (b : Byte) (h : c < 4294967296) :
    crcByte c b < 4294967296 := by
  have h2 : (4294967296 : Nat) = 2 ^ 32 := by norm_num
  have hb : b.val < 2 ^ 32 := by
    have := b.isLt
    omega
  have h0 : c ^^^ b.val < 4294967296 := by
    rw [h2]
    exact Nat.xor_lt_two_pow (h2 ▸ h) hb
  unfold crcByte
  exact crcStep_lt (crcStep_lt (crcStep_lt (crcStep_lt (crcStep_lt
    (crcStep_lt (crcStep_lt (crcStep_lt h0)))))))

theorem crc32_lt (data : List Byte) : crc32 data < 4294967296 := by
  have h2 : (4294967296 : Nat) = 2 ^ 32 := by norm_num
  have hfold : ∀ (l : List Byte) (acc : Nat), acc < 4294967296 →
      l.foldl crcByte acc < 4294967296 := by
    intro l
    induction l with
    | nil => intro acc h; simpa using h
    | cons b t ih =>
        intro acc h
        simpa using ih (crcByte acc b) (crcByte_lt b h)
  unfold crc32
  rw [h2]
  exact Nat.xor_lt_two_pow (h2 ▸ hfold _ 0xFFFFFFFF (by norm_num)) (by norm_num)

/-- Master decode lemma: on a complete framed record (with any suffix), the
decoder checks the stored checksum against CRC-32 of the body and either
returns the key/value split or panics with both checksums. -/
theorem process_record_raw (c : Nat) (k v suffix : List Byte)
    (hc : c < 4294967296) (hk : k.length < 4294967296)
    (hs : k.length + v.length < 4294967296) :
    process_record (u32le c ++ u32le k.length ++ u32le v.length ++ k ++ v ++ suffix)
      = if crc32 (k ++ v) = c then .ok ⟨k, v⟩ suffix
        else .corruptPanic (crc32 (k ++ v)) c := by
  have hv : v.length < 4294967296 := by omega
  have hkv : (k ++ v).length = k.length + v.length := by simp
  have htake : (k ++ (v ++ suffix)).take (k.length + v.length) = k ++ v := by
    rw [show k ++ (v ++ suffix) = (k ++ v) ++ suffix by simp]
    exact List.take_left' (by simp)
  have hdrop : (k ++ (v ++ suffix)).drop (k.length + v.length) = suffix := by
    rw [show k ++ (v ++ suffix) = (k ++ v) ++ suffix by simp]
    exact List.drop_left' (by simp)
  unfold process_record
  rw [show u32le c ++ u32le k.length ++ u32le v.length ++ k ++ v ++ suffix
      = u32le c ++ (u32le k.length ++ (u32le v.length ++ (k ++ (v ++ suffix))))
      from by simp [List.append_assoc]]
  simp only [readU32_u32le]
  simp only [Nat.mod_eq_of_lt hc, Nat.mod_eq_of_lt hk, Nat.mod_eq_of_lt hv,
    Nat.mod_eq_of_lt hs, htake, hdrop]
  by_cases hcrc : crc32 (k ++ v) = c
  · simp only [hcrc, ne_eq, not_true_eq_false, if_neg, ite_false,
      not_false_eq_true, if_pos]
    have hle : k.length ≤ (k ++ v).length := by simp
    rw [if_pos hle]
    simp [List.take_left, List.drop_left, hcrc]
  · simp [hcrc]

/-- Decoding an encoded record followed by arbitrary further log content
succeeds and consumes exactly the record. -/
theorem process_record_encode (k v suffix : List Byte)
    (hk : k.length < 4294967296) (hs : k.length + v.length < 4294967296) :
    process_record (encodeRecord k v ++ suffix) = .ok ⟨k, v⟩ suffix := by
  have h := process_record_raw (crc32 (k ++ v)) k v suffix (crc32_lt _) hk hs
  rw [if_pos rfl] at h
  rw [show encodeRecord k v ++ suffix
      = u32le (crc32 (k ++ v)) ++ u32le k.length ++ u32le v.length ++ k ++ v ++ suffix
      from by simp [encodeRecord, List.append_assoc]]
  exact h

/-- The `key_len` header field of an encoded record is the key length reduced
modulo `2^32` (the `as u32` cast). -/
theorem keyLenField_encode (k v : List Byte) :
    keyLenField (encodeRecord k v) = some (k.length % 4294967296) := by
  unfold keyLenField
  rw [show encodeRecord k v
      = u32le (crc32 (k ++ v)) ++ (u32le k.length ++ (u32le v.length ++ (k ++ v)))
      from by simp [encodeRecord, List.append_assoc]]
  rw [show (4 : Nat) = (u32le (crc32 (k ++ v))).length from (u32le_length _).symm]
  rw [List.drop_left, readU32_u32le]
  rfl

/-! ### Association-list lemmas (the `HashMap` model) -/

theorem find?_filter_ne [BEq α] [LawfulBEq α] (l : List (α × β)) (k k' : α)
    (h : k ≠ k') :
    (l.filter fun e => !(e.1 == k')).find? (fun e => e.1 == k)
      = l.find? (fun e => e.1 == k) := by
  induction l with
  | nil => rfl
  | cons x xs ih =>
      cases hb' : (x.1 == k') with
      | true =>
          have hx' : x.1 = k' := eq_of_beq hb'
          have hb : (x.1 == k) = false := by
            rw [beq_eq_false_iff_ne, hx']
            exact fun hh => h hh.symm
          simp only [List.filter_cons, hb', Bool.not_true, List.find?_cons, hb,
            if_false, cond_false]
          exact ih
      | false =>
          simp only [List.filter_cons, hb', Bool.not_false, if_true,
            List.find?_cons]
          cases hb : (x.1 == k) with
          | true => rfl
          | false => simpa [hb] using ih

theorem alGet_set_self [BEq α] [LawfulBEq α] (l : List (α × β)) (k : α) (v : β) :
    alGet (alSet l k v) k = some v := by
  unfold alGet alSet
  rw [List.find?_append]
  have hnone : (l.filter fun e => !(e.1 == k)).find? (fun e => e.1 == k) = none := by
    rw [List.find?_eq_none]
    intro x hx
    have hmem := List.mem_filter.mp hx
    simp only [Bool.not_eq_true'] at hmem
    simp [hmem.2]
  rw [hnone]
  simp

theorem alGet_set_ne [BEq α] [LawfulBEq α] (l : List (α × β)) (k' k : α) (v : β)
    (h : k ≠ k') :
    alGet (alSet l k' v) k = alGet l k := by
  unfold alGet alSet
  rw [List.find?_append, find?_filter_ne l k k' h]
  have hone : ([(k', v)].find? fun e => e.1 == k) = none := by
    rw [List.find?_eq_none]
    intro x hx
    simp only [List.mem_singleton] at hx
    subst hx
    simp only [Bool.not_eq_true]
    rw [beq_eq_false_iff_ne]
    exact fun hh => h hh.symm
  rw [hone]
  cases l.find? (fun e => e.1 == k) <;> rfl

theorem alGet_remove_self [BEq α] [LawfulBEq α] (l : List (α × β)) (k : α) :
    alGet (alRemove l k) k = none := by
  unfold alGet alRemove
  have hnone : (l.filter fun e => !(e.1 == k)).find? (fun e => e.1 == k) = none := by
    rw [List.find?_eq_none]
    intro x hx
    have hmem := List.mem_filter.mp hx
    simp only [Bool.not_eq_true'] at hmem
    simp [hmem.2]
  rw [hnone]
  rfl

theorem alGet_remove_ne [BEq α] [LawfulBEq α] (l : List (α × β)) (k' k : α)
    (h : k ≠ k') :
    alGet (alRemove l k') k = alGet l k := by
  unfold alGet alRemove
  rw [find?_filter_ne l k k' h]

/-- A successful lookup exhibits the binding as a member of the list. -/
theorem alGet_mem [BEq α] [LawfulBEq α] {l : List (α × β)} {k : α} {v : β}
    (h : alGet l k = some v) : (k, v) ∈ l := by
  unfold alGet at h
  cases hfind : l.find? (fun e => e.1 == k) with
  | none => rw [hfind] at h; cases h
  | some e =>
      rw [hfind] at h
      have hmem := List.mem_of_find?_eq_some hfind
      have hkey : e.1 = k := by
        have := List.find?_some hfind
        simpa using this
      have hv : e.2 = v := by simpa using h
      have hev : (k, v) = e := by
        cases e
        simp_all
      rw [hev]
      exact hmem

/-! ### Lemmas about decoded records -/

/-- Any record `process_record` successfully decodes has a key shorter than
`2^32` and key + value together shorter than `2^32` (both bound by the
32-bit wrapped `data_len` that was read). -/
theorem process_record_ok_lt {f : List Byte} {kv : KeyValuePair}
    {rest : List Byte} (h : process_record f = .ok kv rest) :
    kv.key.length < 4294967296 ∧
      kv.key.length + kv.value.length < 4294967296 := by
  unfold process_record at h
  split at h
  · cases h
  · split at h
    · cases h
    · split at h
      · cases h
      · simp only [] at h
        split at h
        · cases h
        · split at h
          · cases h
            simp only [List.length_take, List.length_drop] at *
            omega
          · cases h

theorem kvAt_ok {file : List Byte} {off : Nat} {kv : KeyValuePair}
    (h : kvAt file off = some kv) :
    ∃ rest, process_record (file.drop off) = .ok kv rest := by
  unfold kvAt at h
  split at h
  · cases h
    exact ⟨_, by assumption⟩
  · cases h

theorem kvAt_lt {file : List Byte} {off : Nat} {kv : KeyValuePair}
    (h : kvAt file off = some kv) :
    kv.key.length < 4294967296 ∧
      kv.key.length + kv.value.length < 4294967296 := by
  obtain ⟨rest, hr⟩ := kvAt_ok h
  exact process_record_ok_lt hr

/-! ### The compaction rewrite pass -/

/-- When every index entry points at a record that decodes to its own key,
the rewrite pass (with no injected failure) succeeds and produces exactly the
concatenated re-encoded live records, together with the index `buildIdx`
describes. -/
theorem rewriteGo_ok (file : List Byte) (entries : List (List Byte × Nat))
    (hwf : ∀ e ∈ entries, (kvAt file e.2).map KeyValuePair.key = some e.1) :
    ∀ (j : Nat) (temp : List Byte) (nidx : Index) (cur : Nat),
    ∃ cur', rewriteGo file none j entries temp nidx cur
      = .ok (temp ++ encAll (pairsOf file entries))
          (buildIdx nidx temp.length (pairsOf file entries)) cur' := by
  induction entries with
  | nil =>
      intro j temp nidx cur
      refine ⟨cur, ?_⟩
      simp [rewriteGo, pairsOf, encAll, buildIdx]
  | cons e rest ih =>
      intro j temp nidx cur
      have he := hwf e (List.mem_cons_self e rest)
      obtain ⟨kv, hkv, hkey⟩ : ∃ kv, kvAt file e.2 = some kv ∧ kv.key = e.1 := by
        cases hk : kvAt file e.2 with
        | none => rw [hk] at he; cases he
        | some kv =>
            rw [hk] at he
            exact ⟨kv, rfl, by simpa using he⟩
      obtain ⟨r, hproc⟩ := kvAt_ok hkv
      obtain ⟨cur', hrec⟩ := ih (fun e' he' => hwf e' (List.mem_cons_of_mem _ he'))
        (j + 1) (temp ++ encodeRecord kv.key kv.value)
        (alSet nidx kv.key temp.length) (file.length - r.length)
      refine ⟨cur', ?_⟩
      have hpairs : pairsOf file (e :: rest) = kv :: pairsOf file rest := by
        simp [pairsOf, hkv]
      rw [hpairs]
      show rewriteGo file none j (e :: rest) temp nidx cur = _
      rw [show rewriteGo file none j (e :: rest) temp nidx cur
          = rewriteGo file none (j + 1) rest (temp ++ encodeRecord kv.key kv.value)
              (alSet nidx kv.key temp.length) (file.length - r.length) from by
        simp [rewriteGo, hproc]]
      rw [hrec]
      have henc : temp ++ encAll (kv :: pairsOf file rest)
          = (temp ++ encodeRecord kv.key kv.value) ++ encAll (pairsOf file rest) := by
        simp [encAll, List.append_assoc]
      have hbld : buildIdx nidx temp.length (kv :: pairsOf file rest)
          = buildIdx (alSet nidx kv.key temp.length)
              (temp ++ encodeRecord kv.key kv.value).length (pairsOf file rest) := by
        simp [buildIdx]
      rw [henc, hbld]

/-- The keys of the re-read pairs are exactly the index keys, in iteration
order. -/
theorem pairsOf_keys (file : List Byte) (entries : List (List Byte × Nat))
    (hwf : ∀ e ∈ entries, (kvAt file e.2).map KeyValuePair.key = some e.1) :
    (pairsOf file entries).map KeyValuePair.key = entries.map Prod.fst := by
  induction entries with
  | nil => rfl
  | cons e rest ih =>
      have he := hwf e (List.mem_cons_self e rest)
      obtain ⟨kv, hkv, hkey⟩ : ∃ kv, kvAt file e.2 = some kv ∧ kv.key = e.1 := by
        cases hk : kvAt file e.2 with
        | none => rw [hk] at he; cases he
        | some kv =>
            rw [hk] at he
            exact ⟨kv, rfl, by simpa using he⟩
      simp only [pairsOf, List.map_cons, hkv, Option.getD_some]
      rw [hkey]
      congr 1
      exact ih (fun e' he' => hwf e' (List.mem_cons_of_mem _ he'))

theorem encAll_cons (p : KeyValuePair) (ps : List KeyValuePair) :
    encAll (p :: ps) = encodeRecord p.key p.value ++ encAll ps := by
  simp [encAll]

/-- Keys not built into the new index look up as before. -/
theorem buildIdx_lookup_not_mem (ps : List KeyValuePair) :
    ∀ (nidx : Index) (base : Nat) (k : List Byte),
    k ∉ ps.map KeyValuePair.key →
    alGet (buildIdx nidx base ps) k = alGet nidx k := by
  induction ps with
  | nil => intro nidx base k _; rfl
  | cons p rest ih =>
      intro nidx base k hk
      simp only [List.map_cons, List.mem_cons, not_or] at hk
      show alGet (buildIdx (alSet nidx p.key base) _ rest) k = _
      rw [ih _ _ _ hk.2, alGet_set_ne _ _ _ _ (fun hh => hk.1 hh)]

/-- Every pair written by the rewrite pass can be found: the new file splits
around its re-encoded record and the new index maps its key to the offset
where that record starts. -/
theorem buildIdx_lookup (ps : List KeyValuePair)
    (hnd : (ps.map KeyValuePair.key).Nodup) :
    ∀ (nidx : Index) (base : Nat) (p : KeyValuePair), p ∈ ps →
    ∃ A B, encAll ps = A ++ (encodeRecord p.key p.value ++ B)
      ∧ alGet (buildIdx nidx base ps) p.key = some (base + A.length) := by
  induction ps with
  | nil => intro nidx base p hp; cases hp
  | cons q rest ih =>
      intro nidx base p hp
      simp only [List.map_cons, List.nodup_cons] at hnd
      rcases List.mem_cons.mp hp with hq | hrest
      · subst hq
        refine ⟨[], encAll rest, by simp [encAll], ?_⟩
        show alGet (buildIdx (alSet nidx p.key base) _ rest) p.key = _
        rw [buildIdx_lookup_not_mem rest _ _ _ hnd.1, alGet_set_self]
        simp
      · obtain ⟨A', B', hAB, hlk⟩ := ih hnd.2 (alSet nidx q.key base)
          (base + (encodeRecord q.key q.value).length) p hrest
        refine ⟨encodeRecord q.key q.value ++ A', B', ?_, ?_⟩
        · rw [encAll_cons, hAB]
          simp [List.append_assoc]
        · show alGet (buildIdx (alSet nidx q.key base) _ rest) p.key = _
          rw [hlk]
          congr 1
          simp [List.length_append]
          omega

theorem kvAt_key_of_map {file : List Byte} {off : Nat} {k : List Byte}
    (h : (kvAt file off).map KeyValuePair.key = some k) :
    ∃ kv, kvAt file off = some kv ∧ kv.key = k := by
  cases hk : kvAt file off with
  | none => rw [hk] at h; cases h
  | some kv =>
      rw [hk] at h
      exact ⟨kv, rfl, by simpa using h⟩

/-! ### The claims -/

/-- C1: the claim states that after `insert(k, v)` succeeds on an open store,
`get(k)` (with no intervening writes to `k`) returns `Some(v)`.  The code
falsifies this: `insert_but_ignore_index` stores the file cursor position
*before* seeking to end-of-file, so on a store opened over an existing
14-byte log (cursor at 0), inserting key `"k"`/value `"v"` records offset 0
in the index while writing the record at offset 14; the following `get("k")`
decodes the pre-existing record at offset 0 and returns its value `"w"`,
not `"v"`. -/
theorem C1_insert_get_returns_stale_record :
    getRes (KvStore.insert (KvStore.openStore exRecordJ) [107] [118]) [107]
      = .found [119]
    ∧ getRes (KvStore.insert (KvStore.openStore exRecordJ) [107] [118]) [107]
      ≠ .found [118] := by
  decide

/-- C2: the claim states that `load()` succeeds on a log ending mid-record at
*any* cut point.  A cut inside the 12-byte header is indeed tolerated, but
the code falsifies the body-cut case: `take(data_len).read_to_end` returns
the short body without an EOF error, the recomputed checksum then mismatches
the stored one, and `process_record` panics (the `debug_assert_eq!` on the
body length also fails), so `load()` aborts instead of succeeding with the
preceding complete record. -/
theorem C2_truncated_body_load_panics :
    KvStore.load (KvStore.openStore exTruncatedLog)
      = .corruptPanic 1908338681 3737471578 := by
  decide

/-- C3 (counterexample): the claim states that decoding a complete record
whose stored checksum mismatches returns a recoverable error value to the
caller.  The code instead aborts: on a complete record for key `"a"`, value
`"b"` with stored checksum `0`, `process_record` executes
`panic!("data corruption encountered ...")` — the `corruptPanic` outcome —
rather than returning an `io::Result` error. -/
theorem C3_checksum_mismatch_panics_eval :
    process_record exCorruptRecord = .corruptPanic (crc32 [97, 98]) 0
    ∧ crc32 [97, 98] ≠ 0 := by
  decide

/-- C3 (amended): decoding any complete record whose stored checksum differs
from the CRC-32 of its `key ++ value` body aborts with a panic carrying the
computed and the stored checksum, instead of returning an error value. -/
theorem C3_amended_mismatch_panics (key value : List Byte) (c : Nat)
    (hc : c < 4294967296) (hne : c ≠ crc32 (key ++ value))
    (hk : key.length < 4294967296)
    (hs : key.length + value.length < 4294967296) :
    process_record (u32le c ++ u32le key.length ++ u32le value.length
        ++ key ++ value)
      = .corruptPanic (crc32 (key ++ value)) c := by
  have h := process_record_raw c key value [] hc hk hs
  rw [if_neg (fun hh => hne hh.symm)] at h
  simpa using h

/-- Witness for `C3_amended_mismatch_panics` at key `"a"`, value `"b"`,
stored checksum `0`. -/
theorem C3_amended_witness :
    ((0 : Nat) < 4294967296
      ∧ (0 : Nat) ≠ crc32 (([97] : List Byte) ++ [98])
      ∧ ([97] : List Byte).length < 4294967296
      ∧ ([97] : List Byte).length + ([98] : List Byte).length < 4294967296)
    ∧ process_record (u32le 0 ++ u32le ([97] : List Byte).length
        ++ u32le ([98] : List Byte).length ++ [97] ++ [98])
      = .corruptPanic (crc32 (([97] : List Byte) ++ [98])) 0 :=
  ⟨⟨by norm_num, by decide, by decide, by decide⟩,
   C3_amended_mismatch_panics [97] [98] 0 (by norm_num) (by decide)
     (by decide) (by decide)⟩

/-- C4: the claim states the offset stored in the index equals the true
end-of-file position of the newly written record, regardless of where the
cursor was left.  The code falsifies it: with the cursor at 0 over a
14-byte log, `insert_but_ignore_index` returns 0 (the stale cursor position
read before the `SeekFrom::End(0)`), while the record's first header byte is
written at offset 14. -/
theorem C4_offset_is_stale_cursor :
    (KvStore.insert_but_ignore_index (KvStore.openStore exRecordJ)
        [107] [118]).2 = 0
    ∧ (KvStore.openStore exRecordJ).file.length = 14
    ∧ (KvStore.insert_but_ignore_index (KvStore.openStore exRecordJ)
        [107] [118]).2
      ≠ (KvStore.openStore exRecordJ).file.length := by
  decide

/-- C5 (counterexample): the claim states that for every key present in the
index before `compact()` succeeds, `get(key)` afterwards returns the
identical value.  The code falsifies it: the stale-offset slip of
`insert_but_ignore_index` (see C1/C4) can leave an index entry pointing at
another key's record.  Concretely, after opening over the 14-byte log
`(j → w)` and inserting `("k", "v")`, the index maps `"k"` to offset 0 —
the record for `"j"` — and `get("k")` returns `Some("w")`.  `compact()`
*succeeds* on this store: it copies forward the record it actually reads,
`(j, w)`, and keys the new index by the decoded key `"j"`, so after
compaction `get("k")` returns `None` instead of the identical value. -/
theorem C5_compact_drops_stale_indexed_key :
    ∃ s', KvStore.compact
        (KvStore.insert (KvStore.openStore exRecordJ) [107] [118]) = .ok s'
      ∧ (alGet (KvStore.insert (KvStore.openStore exRecordJ)
          [107] [118]).index [107]).isSome
      ∧ getRes (KvStore.insert (KvStore.openStore exRecordJ) [107] [118])
          [107] = .found [119]
      ∧ getRes s' [107] = .notFound := by
  refine ⟨⟨encodeRecord [106] [119], 0, [([106], 0)]⟩, ?_, ?_, ?_, ?_⟩
  · decide
  · decide
  · decide
  · decide

/-- C5 (amended): *when* every index entry points at a record that decodes
to its own key and the index has no duplicate keys — the state every
operation is intended to maintain, though the lib.rs:219 slip can break it —
`compact` succeeds, `get` returns the identical result for every indexed key
afterwards, and the new file consists of exactly one re-encoded record per
index key, so no superseded record survives. -/
theorem C5_compact_preserves_live_state (s : Store)
    (hwf : ∀ e ∈ s.index, (kvAt s.file e.2).map KeyValuePair.key = some e.1)
    (hnd : (s.index.map Prod.fst).Nodup) :
    ∃ s', KvStore.compact s = .ok s'
      ∧ (∀ k, (alGet s.index k).isSome → getRes s' k = getRes s k)
      ∧ ∃ pairs : List KeyValuePair, s'.file = encAll pairs
          ∧ pairs.map KeyValuePair.key = s.index.map Prod.fst := by
  obtain ⟨cur', hrw⟩ := rewriteGo_ok s.file s.index hwf 0 [] [] s.cursor
  set ps := pairsOf s.file s.index with hps
  have hkeys : ps.map KeyValuePair.key = s.index.map Prod.fst :=
    pairsOf_keys _ _ hwf
  have hnd' : (ps.map KeyValuePair.key).Nodup := by rw [hkeys]; exact hnd
  refine ⟨⟨encAll ps, 0, buildIdx [] 0 ps⟩, ?_, ?_, ps, rfl, hkeys⟩
  · unfold KvStore.compact KvStore.compactF
    rw [hrw]
    rfl
  · intro k hk
    obtain ⟨off, hoff⟩ : ∃ off, alGet s.index k = some off :=
      Option.isSome_iff_exists.mp hk
    have hmem : (k, off) ∈ s.index := alGet_mem hoff
    have hw : (kvAt s.file off).map KeyValuePair.key = some k :=
      hwf (k, off) hmem
    obtain ⟨kv, hkv, hkey⟩ := kvAt_key_of_map hw
    obtain ⟨rest, hproc⟩ := kvAt_ok hkv
    have hold : getRes s k = .found kv.value := by
      simp [getRes, KvStore.get, KvStore.get_at, hoff, hproc]
    have hpmem : kv ∈ ps := by
      rw [hps]
      unfold pairsOf
      have hmm := List.mem_map_of_mem
        (fun e => (kvAt s.file e.2).getD ⟨[], []⟩) hmem
      simpa [hkv] using hmm
    obtain ⟨A, B, hAB, hlk⟩ := buildIdx_lookup ps hnd' [] 0 kv hpmem
    have hbound := kvAt_lt hkv
    have hdecode : process_record ((encAll ps).drop A.length) = .ok kv B := by
      rw [hAB, List.drop_left]
      exact process_record_encode _ _ _ hbound.1 hbound.2
    have hlk' : alGet (buildIdx [] 0 ps) k = some A.length := by
      rw [← hkey]
      simpa using hlk
    have hnew : getRes ⟨encAll ps, 0, buildIdx [] 0 ps⟩ k = .found kv.value := by
      simp [getRes, KvStore.get, KvStore.get_at, hlk', hdecode]
    rw [hnew, hold]

/-- Witness for `C5_compact_preserves_live_state`: a store whose key `"a"`
was overwritten once; the index points at the live record at offset 14. -/
theorem C5_witness :
    ((∀ e ∈ exStoreSuperseded.index,
        (kvAt exStoreSuperseded.file e.2).map KeyValuePair.key = some e.1)
      ∧ (exStoreSuperseded.index.map Prod.fst).Nodup)
    ∧ ∃ s', KvStore.compact exStoreSuperseded = .ok s'
        ∧ (∀ k, (alGet exStoreSuperseded.index k).isSome →
            getRes s' k = getRes exStoreSuperseded k)
        ∧ ∃ pairs : List KeyValuePair, s'.file = encAll pairs
            ∧ pairs.map KeyValuePair.key
                = exStoreSuperseded.index.map Prod.fst :=
  ⟨⟨by decide, by decide⟩,
   C5_compact_preserves_live_state exStoreSuperseded (by decide) (by decide)⟩

/-- C6: if any I/O operation during compaction's rewrite pass (or the
flush/sync before the rename) fails, `compact` returns the error and the
store still holds the original log file contents and the original index
mapping — only the shared cursor may have moved.  `failAt` ranges over every
injectable failure point, and the intrinsic read-failure path is covered as
well. -/
theorem C6_compact_failure_leaves_state (s : Store) (failAt : Option Nat)
    (s' : Store) (h : KvStore.compactF s failAt = .err s') :
    s'.file = s.file ∧ s'.index = s.index := by
  unfold KvStore.compactF at h
  split at h
  · cases h
  · cases h; exact ⟨rfl, rfl⟩
  · cases h
  · cases h

/-- Witness for `C6_compact_failure_leaves_state`: failure injected into the
second loop iteration of a two-record compaction. -/
theorem C6_witness :
    KvStore.compactF exStoreTwo (some 1)
      = .err { exStoreTwo with cursor := 14 }
    ∧ ({ exStoreTwo with cursor := 14 } : Store).file = exStoreTwo.file
      ∧ ({ exStoreTwo with cursor := 14 } : Store).index = exStoreTwo.index :=
  ⟨by decide,
   C6_compact_failure_leaves_state exStoreTwo (some 1) _ (by decide)⟩

/-- C7 (counterexample): the claim states that `compact` writes its temp
file at a configurable sibling location and replaces the log at the opened
path `p` itself, so the store keeps operating on `p`.  The code falsifies
this: opening at path `"mydb"` and compacting leaves the store's handle on
the hard-coded path `"db"`, not `"mydb"`. -/
theorem C7_compact_moves_store_to_db :
    ∃ res : PStore × FileSys,
      KvStore.compactPath (KvStore.openPath [] "mydb").2
          (KvStore.openPath [] "mydb").1 = .ok res
      ∧ res.1.handlePath = "db"
      ∧ res.1.handlePath ≠ "mydb" := by
  refine ⟨({ store := { file := [], cursor := 0, index := [] },
             handlePath := "db" }, [("mydb", []), ("db", [])]), ?_, rfl,
    by decide⟩
  decide

/-- C7 (amended): `compact` uses the fixed paths `"db2"` (temp file) and
`"db"` (rename target): on success the store's handle refers to `"db"`, the
temp entry `"db2"` is gone after the rename, and every other path — in
particular an opening path different from `"db"` — keeps its previous,
uncompacted contents. -/
theorem C7_amended_hardcoded_paths (fs : FileSys) (ps : PStore)
    (ps' : PStore) (fs' : FileSys)
    (h : KvStore.compactPath fs ps = .ok (ps', fs')) :
    ps'.handlePath = "db"
    ∧ alGet fs' "db2" = none
    ∧ ∀ q : String, q ≠ "db" → q ≠ "db2" → alGet fs' q = alGet fs q := by
  unfold KvStore.compactPath at h
  simp only [] at h
  split at h
  · simp only [CompactPOutcome.ok.injEq, Prod.mk.injEq] at h
    obtain ⟨hps', hfs'⟩ := h
    subst hps'
    subst hfs'
    refine ⟨rfl, ?_, ?_⟩
    · rw [alGet_set_ne _ _ _ _ (by decide : ("db2" : String) ≠ "db")]
      exact alGet_remove_self _ _
    · intro q hq hq2
      rw [alGet_set_ne _ _ _ _ hq, alGet_remove_ne _ _ _ hq2,
        alGet_set_ne _ _ _ _ hq2, alGet_set_ne _ _ _ _ hq2]
  · cases h
  · cases h
  · cases h

/-- Witness for `C7_amended_hardcoded_paths`: compacting a store opened at
`"mydb"`. -/
theorem C7_amended_witness :
    KvStore.compactPath [("mydb", [])]
        { store := { file := [], cursor := 0, index := [] },
          handlePath := "mydb" }
      = .ok ({ store := { file := [], cursor := 0, index := [] },
               handlePath := "db" }, [("mydb", []), ("db", [])])
    ∧ (PStore.handlePath
          { store := { file := [], cursor := 0, index := [] },
            handlePath := "db" } = "db"
        ∧ alGet ([("mydb", []), ("db", [])] : FileSys) "db2" = none
        ∧ ∀ q : String, q ≠ "db" → q ≠ "db2" →
            alGet ([("mydb", []), ("db", [])] : FileSys) q
              = alGet ([("mydb", [])] : FileSys) q) :=
  ⟨by decide,
   C7_amended_hardcoded_paths [("mydb", [])]
     { store := { file := [], cursor := 0, index := [] },
       handlePath := "mydb" }
     { store := { file := [], cursor := 0, index := [] },
       handlePath := "db" }
     [("mydb", []), ("db", [])] (by decide)⟩

/-- C8: the claim states that after `delete(k)` succeeds, `get(k)` returns
`Some("")`.  The code falsifies it through the same stale-cursor offset as
C1: on a store opened over an existing log whose record for `"x"` holds
`"w"`, `delete("x")` appends the empty-value record at offset 14 but indexes
offset 0, so `get("x")` returns the old value `"w"`, not the empty value. -/
theorem C8_delete_then_get_returns_old_value :
    getRes (KvStore.delete (KvStore.openStore exRecordX) [120]) [120]
      = .found [119]
    ∧ getRes (KvStore.delete (KvStore.openStore exRecordX) [120]) [120]
      ≠ .found [] := by
  decide

/-- C9: round trip of the record codec — encoding any key and value whose
lengths and length-sum fit in an unsigned 32-bit integer and decoding the
framed bytes yields back exactly the same key and value, split at
`key_len`, consuming the whole record. -/
theorem C9_codec_roundtrip (key value : List Byte)
    (h1 : key.length < 4294967296) (h2 : value.length < 4294967296)
    (h3 : key.length + value.length < 4294967296) :
    process_record (encodeRecord key value) = .ok ⟨key, value⟩ [] := by
  have h := process_record_encode key value [] h1 h3
  simpa using h

/-- Witness for `C9_codec_roundtrip` at key `[1]`, value `[2, 3]`. -/
theorem C9_witness :
    (([1] : List Byte).length < 4294967296
      ∧ ([2, 3] : List Byte).length < 4294967296
      ∧ ([1] : List Byte).length + ([2, 3] : List Byte).length < 4294967296)
    ∧ process_record (encodeRecord [1] [2, 3]) = .ok ⟨[1], [2, 3]⟩ [] :=
  ⟨by decide, C9_codec_roundtrip [1] [2, 3] (by decide) (by decide)
    (by decide)⟩

/-- C10: the 32-bit length handling loses information at the public
interface: a key of `2^32` bytes is written with a `key_len` header field
that does not equal its size, and a header whose `key_len + val_len`
overflows 32 bits makes the decoder read a number of body bytes different
from `key_len + val_len`. -/
theorem C10_32bit_length_truncation :
    (∃ k v : List Byte, keyLenField (encodeRecord k v) ≠ some k.length)
    ∧ (∃ c kl vl : Nat, kl < 4294967296 ∧ vl < 4294967296
        ∧ bodyBytesRead (u32le c ++ u32le kl ++ u32le vl)
            ≠ some (kl + vl)) := by
  constructor
  · refine ⟨List.replicate 4294967296 0, [], ?_⟩
    rw [keyLenField_encode, List.length_replicate]
    norm_num
  · exact ⟨0, 2147483648, 2147483648, by norm_num, by norm_num, by decide⟩
